import Mathlib

/-!
Verification of the Merkle-tree implementation in `src/merkle_tree.cpp`.

The C++ code builds a Merkle tree over a vector of string data blocks:
  * `simple_hash` / `combine_hashes` wrap `std::hash<string>` (digests are
    strings); the digest function itself is implementation-defined, so the
    whole development is parameterised by `H : String → String`, the
    composite `to_string ∘ std::hash<string>`.  `simple_hash H d = H d` and
    `combine_hashes H l r = H (l ++ r)` mirror lines 68-79 of the source.
  * `build_merkle_tree` pads the block vector with `"_"` until its size is a
    power of two (the `size & (size-1)` bit trick, lines 88-90), allocates a
    leaf `MerkleNode` per block, and reduces a FIFO worklist of node
    pointers bottom-up (lines 99-129).  Heap allocation and pointer updates
    are modelled by an explicit arena `Heap`: `node : Nat → MerkleNode` is
    the memory, indices are pointers, `Heap.alloc` is `new`, and
    `Heap.setParent` is the `left->parent = parent` store.  The two C++
    `while` loops are modelled with an explicit fuel variant that is large
    enough by construction (`pad_go` with fuel `length`, `build_go` with
    fuel `padded.length`); the development proves the fuel is never
    exhausted on the real calls.
  * `generate_merkle_proof` walks parent pointers from a leaf, collecting
    the sibling hash at every step (lines 137-152); the `root` argument is
    unused, exactly as in the source.
  * `verify` folds the proof over the leaf hash, ordering every
    `combine_hashes` call by comparing the two digests lexicographically,
    and finally compares with the root hash (lines 157-180).

String comparisons: the core decidability instance for `String.lt` does not
reduce in the kernel, so we install equivalent instances going through
`toList`.  This does not change any value: `if c < s then … else …` only
depends on the truth of `c < s`, not on which `Decidable` instance is used.
-/

instance (priority := 2000) decStringLtByList (a b : String) : Decidable (a < b) :=
  decidable_of_iff (a.toList < b.toList) String.lt_iff_toList_lt.symm

instance (priority := 2000) decStringLeByList (a b : String) : Decidable (a ≤ b) :=
  decidable_of_iff (a.toList ≤ b.toList) String.le_iff_toList_le.symm

/-- Model of `struct MerkleNode` (source lines 32-39): a stored hash plus
`left`, `right`, `parent` pointers.  Pointers are arena indices; a null
pointer is `none`.  The constructor `MerkleNode(string h)` initialises the
three pointers to null, modelled by the default field values. -/
structure MerkleNode where
  hash : String
  left : Option Nat := none
  right : Option Nat := none
  parent : Option Nat := none
deriving Repr, DecidableEq

/-- Arena model of the C++ heap: `size` is the number of nodes allocated so
far (indices `0, …, size-1` are live), `node` is the memory.  Reads outside
the allocated region return junk that no proved statement depends on. -/
structure Heap where
  size : Nat
  node : Nat → MerkleNode

/-- Model of `new MerkleNode(...)` followed by the field initialisation in
the builder: the fresh node lives at index `size`. -/
def Heap.alloc (h : Heap) (n : MerkleNode) : Heap :=
  ⟨h.size + 1, fun i => if i = h.size then n else h.node i⟩

/-- Model of the pointer store `x->parent = parent` for the node at index
`i`. -/
def Heap.setParent (h : Heap) (i pidx : Nat) : Heap :=
  ⟨h.size, fun j => if j = i then { h.node i with parent := some pidx } else h.node j⟩

/-- Model of `simple_hash` (source lines 68-73): hash one data block.
`H` is the unspecified digest function `to_string ∘ std::hash<string>`. -/
def simple_hash (H : String → String) (data : String) : String := H data

/-- Model of `combine_hashes` (source lines 76-79): hash of the
concatenation of the two child digests, left first. -/
def combine_hashes (H : String → String) (left_hash right_hash : String) : String :=
  H (left_hash ++ right_hash)

/-- The padding loop of `build_merkle_tree` (source lines 88-90):
`while ((data_blocks.size() & (data_blocks.size() - 1)) != 0)
   data_blocks.push_back("_");`
written with an explicit fuel variant.  `pad_go_spec` below proves that
fuel `data_blocks.length` (used by `pad_blocks`) is never exhausted, so
this is exactly the C++ loop. -/
def pad_go : Nat → List String → List String
  | 0, data_blocks => data_blocks
  | fuel + 1, data_blocks =>
    if data_blocks.length &&& (data_blocks.length - 1) != 0 then
      pad_go fuel (data_blocks ++ ["_"])
    else data_blocks

/-- Step 1 of `build_merkle_tree`: the padding loop run on the input. -/
def pad_blocks (data_blocks : List String) : List String :=
  pad_go data_blocks.length data_blocks

/-- The bottom-up reduction loop of `build_merkle_tree` (source lines
105-127): while more than one node is in the worklist, combine the two
frontmost nodes under a fresh parent, link the children and their parent
pointers, drop the two from the front and append the parent at the back.
The fuel (one per loop iteration plus one final test) is the initial
worklist length; each iteration shortens the list by one, so the fuel used
by `build_merkle_tree` is never exhausted. -/
def build_go (H : String → String) : Nat → Heap → List Nat → Heap × List Nat
  | 0, heap, nodes => (heap, nodes)
  | fuel + 1, heap, nodes =>
    if nodes.length > 1 then
      let i := nodes.getD 0 0
      let j := nodes.getD 1 0
      let parent_hash := combine_hashes H (heap.node i).hash (heap.node j).hash
      let pidx := heap.size
      let heap1 := heap.alloc { hash := parent_hash, left := some i, right := some j }
      let heap2 := (heap1.setParent i pidx).setParent j pidx
      build_go H fuel heap2 (nodes.drop 2 ++ [pidx])
    else (heap, nodes)

/-- Model of `build_merkle_tree` (source lines 82-130): pad, make a leaf
node per padded block (in input order), run the reduction loop, and return
`nodes[0]`.  On an empty worklist the C++ `nodes[0]` is an out-of-bounds
read (undefined behaviour); the model returns `none` there, via `head?`. -/
def build_merkle_tree (H : String → String) (data_blocks : List String) :
    Heap × Option Nat :=
  let padded := pad_blocks data_blocks
  let heap0 : Heap := ⟨padded.length, fun i => { hash := simple_hash H (padded.getD i "") }⟩
  let r := build_go H padded.length heap0 (List.range padded.length)
  (r.1, r.2.head?)

/-- The parent-chasing loop of `generate_merkle_proof` (source lines
145-150): while the current node has a parent, push the sibling's hash and
move up.  The fuel (`heap.size` in `generate_merkle_proof`) bounds the
chain length; on trees produced by `build_merkle_tree` the chain is
strictly increasing in the arena, so the fuel is never exhausted.  The C++
sibling read `sibling->hash` on a null sibling would be undefined
behaviour; the model returns `""` there, which never happens on built
trees. -/
def proof_go (heap : Heap) : Nat → Nat → List String
  | 0, _ => []
  | fuel + 1, cur =>
    match (heap.node cur).parent with
    | none => []
    | some p =>
      let pn := heap.node p
      let sib := if pn.left = some cur then pn.right else pn.left
      (match sib with
       | some s => (heap.node s).hash
       | none => "") :: proof_go heap fuel p

/-- Model of `generate_merkle_proof` (source lines 137-152).  The `root`
argument is taken but never used, exactly as in the source. -/
def generate_merkle_proof (heap : Heap) (root leaf : Nat) : List String :=
  proof_go heap heap.size leaf

/-- Model of `verify` (source lines 157-180): fold the proof over the leaf
hash; at each step the lexicographically smaller digest is the left
argument of `combine_hashes`; finally compare with the root hash. -/
def verify (H : String → String) (root leaf : MerkleNode)
    (merkle_proof : List String) : Bool :=
  let current_hash := merkle_proof.foldl
    (fun current_hash sibling_hash =>
      if current_hash < sibling_hash then combine_hashes H current_hash sibling_hash
      else combine_hashes H sibling_hash current_hash)
    leaf.hash
  current_hash == root.hash

/-- Hash of the node at height `h`, position `j` (from the left) of the
tree the builder constructs over the padded blocks `q`: leaves are the
block hashes, inner nodes combine their two children positionally. -/
def levelHash (H : String → String) (q : List String) : Nat → Nat → String
  | 0, j => simple_hash H (q.getD j "")
  | h + 1, j => combine_hashes H (levelHash H q h (2 * j)) (levelHash H q h (2 * j + 1))

/-- Arena index of the first node of height `h` in a tree with `2 ^ k`
leaves: the builder lays the levels out consecutively, level `h` having
`2 ^ (k - h)` nodes. -/
def levelBase (k : Nat) : Nat → Nat
  | 0 => 0
  | h + 1 => levelBase k h + 2 ^ (k - h)

/-- Position of the sibling of position `x` within one level. -/
def sibpos (x : Nat) : Nat := if x % 2 = 0 then x + 1 else x - 1

/-- Hash function used for the concrete counterexamples: an arbitrary
member of the family of digest functions (the source's `std::hash` is
implementation-defined; the spec calls the hash primitive an injected
capability). -/
def hashCex : String → String :=
  fun s => if s = "u" then "b" else if s = "v" then "a" else s

/-- Hash function used for the tamper-detection counterexample: chosen so
that two different ordered combinations concatenate to the same string
without any digest collision. -/
def hashCex2 : String → String :=
  fun s => if s = "u" then "aba" else if s = "v" then "ba" else s

/-- Hash function used for positive witnesses: leaf digests are ordered the
same way positionally and lexicographically. -/
def hashWit : String → String :=
  fun s => if s = "u" then "a" else if s = "v" then "b" else "h" ++ s

/-- Invariant satisfied by one arena cell during the reduction loop over
`p` padded leaves, `m` merge steps in: cells `0, …, p-1` are the leaves
(hashes of the padded blocks `q`, no children), every later cell `p + t`
is an inner node whose children are cells `2t` and `2t + 1` and whose hash
combines theirs, and exactly the first `2m` cells (the merged ones) have
their parent pointer set, to `p + i / 2`. -/
def nodeSpec (H : String → String) (q : List String) (p m i : Nat) (heap : Heap) : Prop :=
  (i < p → (heap.node i).left = none ∧ (heap.node i).right = none ∧
    (heap.node i).hash = simple_hash H (q.getD i ""))
  ∧ (p ≤ i → (heap.node i).left = some (2 * (i - p)) ∧ (heap.node i).right = some (2 * (i - p) + 1) ∧
    (heap.node i).hash
      = combine_hashes H (heap.node (2 * (i - p))).hash (heap.node (2 * (i - p) + 1)).hash)
  ∧ (heap.node i).parent = (if i < 2 * m then some (p + i / 2) else none)

/-- Invariant of the whole arena after `m` merge steps of the reduction
loop over `p` padded leaves. -/
def heapSpec (H : String → String) (q : List String) (p m : Nat) (heap : Heap) : Prop :=
  heap.size = p + m ∧ ∀ i, i < p + m → nodeSpec H q p m i heap

/-- One verification step of `verify`, as a named function: combine the
accumulated digest with the next proof entry, smaller digest first. -/
def verifyStep (H : String → String) (current_hash sibling_hash : String) : String :=
  if current_hash < sibling_hash then combine_hashes H current_hash sibling_hash
  else combine_hashes H sibling_hash current_hash

/-- A collision of the verification combine step: two pairs of digests that
are not the same unordered pair but combine to the same digest. -/
def CombineCollision (H : String → String) : Prop :=
  ∃ x y x' y', verifyStep H x y = verifyStep H x' y'
    ∧ ¬(x = x' ∧ y = y') ∧ ¬(x = y' ∧ y = x')

/-- Power-of-two test used by the padding loop: for positive `n`, the
bit trick `n & (n - 1) == 0` holds exactly when `n` is a power of two. -/
theorem land_pred_eq_zero_iff (n : Nat) (hn : n ≠ 0) :
    n &&& (n - 1) = 0 ↔ ∃ j, n = 2 ^ j := by
  constructor
  · intro h
    by_contra hpow
    push_neg at hpow
    have hk := Nat.log2_self_le hn
    have hk2 := Nat.lt_log2_self (n := n)
    have hlt : 2 ^ n.log2 < n := lt_of_le_of_ne hk (fun e => hpow n.log2 e.symm)
    have hb1 : n.testBit n.log2 = true := by
      rw [Nat.testBit_to_div_mod]
      have : n / 2 ^ n.log2 = 1 := by
        apply Nat.div_eq_of_lt_le
        · simpa using hk
        · have : 2 ^ (n.log2 + 1) = 2 * 2 ^ n.log2 := by ring
          omega
      simp [this]
    have hb2 : (n - 1).testBit n.log2 = true := by
      rw [Nat.testBit_to_div_mod]
      have : (n - 1) / 2 ^ n.log2 = 1 := by
        apply Nat.div_eq_of_lt_le
        · omega
        · have : 2 ^ (n.log2 + 1) = 2 * 2 ^ n.log2 := by ring
          omega
      simp [this]
    have : (n &&& (n - 1)).testBit n.log2 = true := by
      rw [Nat.testBit_land, hb1, hb2]
      rfl
    rw [h, Nat.zero_testBit] at this
    exact Bool.false_ne_true this
  · rintro ⟨j, rfl⟩
    apply Nat.eq_of_testBit_eq
    intro i
    rw [Nat.testBit_land, Nat.zero_testBit, Nat.testBit_two_pow_sub_one]
    rcases eq_or_ne j i with rfl | hji
    · simp
    · rw [Nat.testBit_two_pow_of_ne hji]
      rfl

/-- Value of the padding loop, provided the fuel covers the distance to the
next power of two: it appends `"_"` until the length is the smallest power
of two at least the original length (which is `2 ^ Nat.clog 2 length`). -/
theorem pad_go_spec : ∀ (fuel : Nat) (l : List String), 1 ≤ l.length →
    2 ^ Nat.clog 2 l.length ≤ l.length + fuel →
    pad_go fuel l = l ++ List.replicate (2 ^ Nat.clog 2 l.length - l.length) "_" := by
  intro fuel
  induction fuel with
  | zero =>
    intro l hl hfuel
    have hle := Nat.le_pow_clog Nat.one_lt_two l.length
    have hlen : l.length = 2 ^ Nat.clog 2 l.length := by omega
    rw [pad_go, ← hlen]
    simp
  | succ f ih =>
    intro l hl hfuel
    rcases eq_or_ne (l.length &&& (l.length - 1)) 0 with hc | hc
    · obtain ⟨j, hj⟩ := (land_pred_eq_zero_iff l.length (by omega)).1 hc
      have hclog : Nat.clog 2 l.length = j := by
        rw [hj, Nat.clog_pow 2 j Nat.one_lt_two]
      rw [pad_go, if_neg (by simp [hc]), hclog, ← hj]
      simp
    · have hle := Nat.le_pow_clog Nat.one_lt_two l.length
      have hne : l.length ≠ 2 ^ Nat.clog 2 l.length := by
        intro e
        exact hc ((land_pred_eq_zero_iff l.length (by omega)).2 ⟨Nat.clog 2 l.length, e⟩)
      have hlt : l.length < 2 ^ Nat.clog 2 l.length := lt_of_le_of_ne hle hne
      have hclog : Nat.clog 2 (l.length + 1) = Nat.clog 2 l.length := by
        apply le_antisymm
        · exact (Nat.le_pow_iff_clog_le Nat.one_lt_two).1 hlt
        · exact Nat.clog_mono_right 2 (by omega)
      have hrec := ih (l ++ ["_"]) (by simp) (by simp [hclog]; omega)
      have hrec2 : pad_go f (l ++ ["_"])
          = l ++ ("_" :: List.replicate (2 ^ Nat.clog 2 l.length - (l.length + 1)) "_") := by
        rw [hrec]
        simp [hclog]
      rw [pad_go, if_pos (by simp [hc]), hrec2]
      have hcnt : 2 ^ Nat.clog 2 l.length - l.length
          = (2 ^ Nat.clog 2 l.length - (l.length + 1)) + 1 := by omega
      rw [hcnt, List.replicate_succ]

/-- The fuel `pad_blocks` passes to the loop is always sufficient: the next
power of two is below twice the (positive) length. -/
theorem pad_fuel_enough (n : Nat) (hn : 1 ≤ n) : 2 ^ Nat.clog 2 n ≤ n + n := by
  rcases hc : Nat.clog 2 n with _ | c
  · simp only [pow_zero]
    omega
  · have h1 : ¬(n ≤ 2 ^ c) := by
      intro h
      have := (Nat.le_pow_iff_clog_le Nat.one_lt_two).1 h
      omega
    have h2 : 2 ^ (c + 1) = 2 * 2 ^ c := by ring
    omega

/-- Value of `pad_blocks`: the padded list appends underscores up to
`2 ^ Nat.clog 2 length`, the smallest power of two at least the length. -/
theorem pad_blocks_spec (l : List String) (hl : 1 ≤ l.length) :
    pad_blocks l = l ++ List.replicate (2 ^ Nat.clog 2 l.length - l.length) "_"
    ∧ (pad_blocks l).length = 2 ^ Nat.clog 2 l.length := by
  have h := pad_go_spec l.length l hl (by
    have := pad_fuel_enough l.length hl
    omega)
  refine ⟨h, ?_⟩
  rw [pad_blocks, h]
  have hle := Nat.le_pow_clog Nat.one_lt_two l.length
  simp
  omega

/-- C3: padding appends the sentinel `"_"` until the leaf count is the
smallest power of two at least the input count `n ≥ 1`: the padded length
is a power of two, at least `n`, below every power of two at least `n`, the
appended blocks are all `"_"` at the end, and when `n` is itself a power of
two nothing is appended. -/
theorem C3_padding (l : List String) (h : 1 ≤ l.length) :
    (∃ k, (pad_blocks l).length = 2 ^ k)
    ∧ l.length ≤ (pad_blocks l).length
    ∧ (∀ m, l.length ≤ 2 ^ m → (pad_blocks l).length ≤ 2 ^ m)
    ∧ pad_blocks l = l ++ List.replicate ((pad_blocks l).length - l.length) "_"
    ∧ ((∃ j, l.length = 2 ^ j) → pad_blocks l = l) := by
  obtain ⟨hval, hlen⟩ := pad_blocks_spec l h
  have hle := Nat.le_pow_clog Nat.one_lt_two l.length
  refine ⟨⟨Nat.clog 2 l.length, hlen⟩, by omega, ?_, ?_, ?_⟩
  · intro m hm
    rw [hlen]
    exact Nat.pow_le_pow_right (by norm_num) ((Nat.le_pow_iff_clog_le Nat.one_lt_two).1 hm)
  · rw [hlen]
    exact hval
  · rintro ⟨j, hj⟩
    have hclog : Nat.clog 2 l.length = j := by
      rw [hj, Nat.clog_pow 2 j Nat.one_lt_two]
    rw [hval, hclog, ← hj]
    simp

/-- Witness for C3 on the concrete three-block input of the spec's own
scenario. -/
theorem C3_padding_witness :
    1 ≤ (["A", "B", "C"] : List String).length
    ∧ ((∃ k, (pad_blocks ["A", "B", "C"]).length = 2 ^ k)
      ∧ (["A", "B", "C"] : List String).length ≤ (pad_blocks ["A", "B", "C"]).length
      ∧ (∀ m, (["A", "B", "C"] : List String).length ≤ 2 ^ m →
          (pad_blocks ["A", "B", "C"]).length ≤ 2 ^ m)
      ∧ pad_blocks ["A", "B", "C"]
        = ["A", "B", "C"]
          ++ List.replicate ((pad_blocks ["A", "B", "C"]).length
              - (["A", "B", "C"] : List String).length) "_"
      ∧ ((∃ j, (["A", "B", "C"] : List String).length = 2 ^ j) → pad_blocks ["A", "B", "C"] = ["A", "B", "C"])) :=
  ⟨by decide, C3_padding ["A", "B", "C"] (by decide)⟩

/-- Initial state of the reduction loop: the leaf arena over the padded
blocks satisfies the invariant with zero merge steps. -/
theorem heapSpec_init (H : String → String) (q : List String) :
    heapSpec H q q.length 0 ⟨q.length, fun i => { hash := simple_hash H (q.getD i "") }⟩ := by
  refine ⟨by simp, ?_⟩
  intro i hi
  simp only [Nat.add_zero] at hi
  exact ⟨fun _ => ⟨rfl, rfl, rfl⟩, fun hip => absurd hi (by omega), by simp⟩

/-- One iteration of the reduction loop preserves the invariant: merging
the two frontmost worklist entries `2m` and `2m+1` under the fresh parent
`p + m` moves the invariant from `m` to `m + 1` merge steps. -/
theorem heapSpec_step (H : String → String) (q : List String) (p m : Nat) (heap : Heap)
    (hs : heapSpec H q p m heap) (hm : m + 2 ≤ p) :
    heapSpec H q p (m + 1)
      (((heap.alloc
          { hash := combine_hashes H (heap.node (2*m)).hash (heap.node (2*m+1)).hash,
            left := some (2*m), right := some (2*m+1) }).setParent (2*m) (p+m)).setParent
        (2*m+1) (p+m)) := by
  obtain ⟨hsize, hnodes⟩ := hs
  constructor
  · simp only [Heap.alloc, Heap.setParent, hsize]
    omega
  intro i hi
  have hnode : ∀ x, ((((heap.alloc
      { hash := combine_hashes H (heap.node (2*m)).hash (heap.node (2*m+1)).hash,
        left := some (2*m), right := some (2*m+1) }).setParent (2*m) (p+m)).setParent
      (2*m+1) (p+m)).node x)
      = if x = 2*m+1 then { heap.node (2*m+1) with parent := some (p+m) }
        else if x = 2*m then { heap.node (2*m) with parent := some (p+m) }
        else if x = p + m then
          { hash := combine_hashes H (heap.node (2*m)).hash (heap.node (2*m+1)).hash,
            left := some (2*m), right := some (2*m+1), parent := none }
        else heap.node x := by
    intro x
    simp only [Heap.alloc, Heap.setParent, hsize]
    rcases eq_or_ne x (2*m+1) with rfl | h1
    · simp [show (2*m+1 : Nat) ≠ p + m by omega]
    rcases eq_or_ne x (2*m) with rfl | h2
    · simp [h1, show (2*m : Nat) ≠ p + m by omega]
    rcases eq_or_ne x (p+m) with rfl | h3
    · simp [h1, h2]
    · simp [h1, h2, h3]
  refine ⟨?_, ?_, ?_⟩
  · intro hip
    have hx : i ≠ p + m := by omega
    obtain ⟨c1, _, _⟩ := hnodes i (by omega)
    obtain ⟨hl, hr, hh⟩ := c1 hip
    rw [hnode i]
    rcases eq_or_ne i (2*m+1) with rfl | h1
    · simp only [eq_self_iff_true, if_true]
      exact ⟨hl, hr, hh⟩
    rcases eq_or_ne i (2*m) with rfl | h2
    · simp only [if_neg h1, eq_self_iff_true, if_true]
      exact ⟨hl, hr, hh⟩
    · simp only [if_neg h1, if_neg h2, if_neg hx]
      exact ⟨hl, hr, hh⟩
  · intro hip
    have hch1 : 2 * (i - p) ≠ 2*m+1 := by omega
    have hch1b : 2 * (i - p) + 1 ≠ 2*m := by omega
    rcases eq_or_ne i (p + m) with rfl | hip2
    · rw [hnode (p+m), hnode (2*(p+m-p)), hnode (2*(p+m-p)+1)]
      have e1 : 2 * (p + m - p) = 2 * m := by omega
      have e2 : p + m ≠ 2*m+1 := by omega
      have e3 : p + m ≠ 2*m := by omega
      rw [e1]
      simp only [if_neg e2, if_neg e3, if_neg (show (2*m : Nat) ≠ 2*m+1 by omega),
        if_neg (show (2*m+1 : Nat) ≠ 2*m by omega), eq_self_iff_true, if_true]
      exact ⟨trivial, trivial, trivial⟩
    · have hilt : i < p + m := by omega
      obtain ⟨_, c2, _⟩ := hnodes i (by omega)
      obtain ⟨hl, hr, hh⟩ := c2 hip
      have hchild : 2 * (i - p) < 2 * m ∧ 2 * (i - p) + 1 < 2 * m := by omega
      rw [hnode i, hnode (2*(i-p)), hnode (2*(i-p)+1)]
      rcases eq_or_ne i (2*m+1) with rfl | h1
      · simp only [eq_self_iff_true, if_true]
        refine ⟨hl, hr, ?_⟩
        simp only [if_neg (by omega : 2 * (2*m+1 - p) ≠ 2*m+1),
          if_neg (by omega : 2 * (2*m+1 - p) ≠ 2*m),
          if_neg (by omega : 2 * (2*m+1 - p) ≠ p + m),
          if_neg (by omega : 2 * (2*m+1 - p) + 1 ≠ 2*m+1),
          if_neg (by omega : 2 * (2*m+1 - p) + 1 ≠ 2*m),
          if_neg (by omega : 2 * (2*m+1 - p) + 1 ≠ p + m)]
        exact hh
      rcases eq_or_ne i (2*m) with rfl | h2
      · simp only [if_neg h1, eq_self_iff_true, if_true]
        refine ⟨hl, hr, ?_⟩
        simp only [if_neg (by omega : 2 * (2*m - p) ≠ 2*m+1),
          if_neg (by omega : 2 * (2*m - p) ≠ 2*m),
          if_neg (by omega : 2 * (2*m - p) ≠ p + m),
          if_neg (by omega : 2 * (2*m - p) + 1 ≠ 2*m+1),
          if_neg (by omega : 2 * (2*m - p) + 1 ≠ 2*m),
          if_neg (by omega : 2 * (2*m - p) + 1 ≠ p + m)]
        exact hh
      · simp only [if_neg h1, if_neg h2, if_neg (by omega : i ≠ p + m),
          if_neg (by omega : 2 * (i - p) ≠ 2*m+1),
          if_neg (by omega : 2 * (i - p) ≠ 2*m),
          if_neg (by omega : 2 * (i - p) ≠ p + m),
          if_neg (by omega : 2 * (i - p) + 1 ≠ 2*m+1),
          if_neg (by omega : 2 * (i - p) + 1 ≠ 2*m),
          if_neg (by omega : 2 * (i - p) + 1 ≠ p + m)]
        exact ⟨hl, hr, hh⟩
  · rw [hnode i]
    rcases eq_or_ne i (2*m+1) with rfl | h1
    · simp only [eq_self_iff_true, if_true]
      have hd : (2*m+1) / 2 = m := by omega
      rw [if_pos (by omega), hd]
    rcases eq_or_ne i (2*m) with rfl | h2
    · simp only [if_neg h1, eq_self_iff_true, if_true]
      have hd : (2*m) / 2 = m := by omega
      rw [if_pos (by omega), hd]
    rcases eq_or_ne i (p+m) with rfl | h3
    · simp only [if_neg h1, if_neg h2, eq_self_iff_true, if_true]
      rw [if_neg (by omega)]
    · simp only [if_neg h1, if_neg h2, if_neg h3]
      obtain ⟨_, _, c3⟩ := hnodes i (by omega)
      rw [c3]
      rcases Nat.lt_or_ge i (2*m) with h4 | h4
      · rw [if_pos h4, if_pos (by omega)]
      · rw [if_neg (by omega), if_neg (by omega)]

/-- Running the remaining `c + 1` fuel of the reduction loop from a state
`m` merges in: the worklist is the consecutive arena range `[2m, p + m)`,
and the loop finishes with a single worklist entry, the root `2p - 2`,
leaving an arena that satisfies the invariant with all `p - 1` merges
done. -/
theorem build_go_run (H : String → String) (q : List String) (p : Nat) :
    ∀ (c m : Nat) (heap : Heap), heapSpec H q p m heap → m + c + 1 = p →
    ∃ heap2, build_go H (c + 1) heap (List.range' (2*m) (p - m)) = (heap2, [2*p - 2])
      ∧ heapSpec H q p (p - 1) heap2 := by
  intro c
  induction c with
  | zero =>
    intro m heap hs hm
    obtain rfl : p = m + 1 := by omega
    refine ⟨heap, ?_, ?_⟩
    · have h1 : m + 1 - m = 1 := by omega
      have h2 : 2*(m+1) - 2 = 2*m := by omega
      rw [h1, h2]
      rfl
    · simpa using hs
  | succ f ih =>
    intro m heap hs hm
    have hm2 : m + 2 ≤ p := by omega
    obtain ⟨hsize, hnodes⟩ := hs
    have hq : List.range' (2*m) (p - m) = (2*m) :: (2*m+1) :: List.range' (2*m+2) (p - m - 2) := by
      have h1 : p - m = (p - m - 2) + 2 := by omega
      rw [h1]
      rfl
    have hguard : ((2*m) :: (2*m+1) :: List.range' (2*m+2) (p - m - 2)).length > 1 := by
      simp
    have hdrop : List.range' (2*(m+1)) (p - (m+1))
        = List.range' (2*m+2) (p - m - 2) ++ [p + m] := by
      have h1 : p - (m+1) = (p - m - 2) + 1 := by omega
      have h2 : 2*(m+1) = 2*m+2 := by ring
      have h3 : 2*m+2 + (p - m - 2) = p + m := by omega
      rw [h1, h2, List.range'_1_concat, h3]
    obtain ⟨heap2, hrun, hspec2⟩ := ih (m+1)
      (((heap.alloc
          { hash := combine_hashes H (heap.node (2*m)).hash (heap.node (2*m+1)).hash,
            left := some (2*m), right := some (2*m+1) }).setParent (2*m) (p+m)).setParent
        (2*m+1) (p+m))
      (heapSpec_step H q p m heap ⟨hsize, hnodes⟩ hm2) (by omega)
    refine ⟨heap2, ?_, hspec2⟩
    rw [hq, build_go, if_pos hguard]
    simp only [List.getD_cons_zero, List.getD_cons_succ, List.drop_succ_cons, List.drop_zero,
      hsize]
    rw [← hdrop]
    exact hrun

/-- Closed form of `build_merkle_tree` on a non-empty input: the returned
root pointer is arena index `2p - 2` where `p` is the padded leaf count,
and the arena satisfies the whole-tree invariant (all `p - 1` merges
done). -/
theorem build_merkle_tree_spec (H : String → String) (l : List String) (hl : 1 ≤ l.length) :
    (build_merkle_tree H l).2 = some (2 * (pad_blocks l).length - 2)
    ∧ heapSpec H (pad_blocks l) (pad_blocks l).length ((pad_blocks l).length - 1)
        (build_merkle_tree H l).1 := by
  have hp : 1 ≤ (pad_blocks l).length := by
    have hlen := (pad_blocks_spec l hl).2
    have := Nat.pos_pow_of_pos (Nat.clog 2 l.length) (show 0 < 2 by norm_num)
    omega
  obtain ⟨c, hc⟩ : ∃ c, c + 1 = (pad_blocks l).length := ⟨(pad_blocks l).length - 1, by omega⟩
  obtain ⟨heap2, hgo, hspec⟩ :=
    build_go_run H (pad_blocks l) (pad_blocks l).length c 0 _ (heapSpec_init H (pad_blocks l))
      (by omega)
  simp only [Nat.mul_zero, Nat.sub_zero] at hgo
  rw [hc] at hgo
  have hbuild : build_merkle_tree H l = (heap2, some (2 * (pad_blocks l).length - 2)) := by
    simp only [build_merkle_tree]
    rw [List.range_eq_range', hgo]
    rfl
  rw [hbuild]
  exact ⟨rfl, hspec⟩

/-- Additive closed form of the level bases: level `h` of a tree over
`2 ^ k` leaves starts `2 ^ (k - h + 1)` short of the arena end
`2 ^ (k + 1)`. -/
theorem levelBase_add_pow (k : Nat) : ∀ h, h ≤ k → levelBase k h + 2 ^ (k - h + 1) = 2 ^ (k + 1) := by
  intro h
  induction h with
  | zero =>
    intro _
    simp [levelBase]
  | succ g ih =>
    intro hg
    have h1 := ih (by omega)
    have e2 : k - g + 1 = (k - (g+1)) + 1 + 1 := by omega
    have e1 : k - g = (k - (g+1)) + 1 := by omega
    rw [e2] at h1
    rw [levelBase, e1]
    simp only [pow_succ] at h1 ⊢
    omega

/-- The first inner level (and hence every later level) starts at or after
the leaf count `2 ^ k`. -/
theorem le_levelBase_succ (k : Nat) : ∀ h, 2 ^ k ≤ levelBase k (h+1) := by
  intro h
  induction h with
  | zero =>
    simp [levelBase]
  | succ g ih =>
    rw [levelBase]
    have hc : 0 < 2 ^ (k - (g+1)) := Nat.pos_pow_of_pos _ (by norm_num)
    omega

/-- The root is the last arena cell: level `k` starts at `2 ^ (k+1) - 2`. -/
theorem levelBase_last (k : Nat) : levelBase k k = 2 ^ (k+1) - 2 := by
  have h := levelBase_add_pow k k le_rfl
  have e : k - k + 1 = 1 := by omega
  rw [e, pow_one] at h
  omega

/-- Every node of level `h ≤ k` sits at or before the root cell. -/
theorem levelBase_idx_le (k h j : Nat) (hh : h ≤ k) (hj : j < 2 ^ (k - h)) :
    levelBase k h + j ≤ 2 ^ (k+1) - 2 := by
  have h1 := levelBase_add_pow k h hh
  have h2 : (2:Nat) ^ (k - h + 1) = 2 ^ (k-h) * 2 := pow_succ 2 (k-h)
  have h3 : 0 < 2 ^ (k - h) := Nat.pos_pow_of_pos _ (by norm_num)
  omega

/-- Every node strictly below the top level sits strictly before the root
cell. -/
theorem levelBase_idx_lt (k h j : Nat) (hh : h < k) (hj : j < 2 ^ (k - h)) :
    levelBase k h + j < 2 ^ (k+1) - 2 := by
  have h1 := levelBase_add_pow k h (le_of_lt hh)
  have h2 : (2:Nat) ^ (k - h + 1) = 2 ^ (k-h) * 2 := pow_succ 2 (k-h)
  have h3 : (2:Nat) ^ 1 ≤ 2 ^ (k - h) := Nat.pow_le_pow_right (by norm_num) (by omega)
  rw [pow_one] at h3
  omega

/-- Index arithmetic of the parent map `i ↦ p + i / 2` on level
coordinates: the parent of node `j` of level `h` is node `j / 2` of level
`h + 1`. -/
theorem levelBase_parent (k h j : Nat) (hh : h < k) :
    2 ^ k + (levelBase k h + j) / 2 = levelBase k (h+1) + j / 2 := by
  have h1 := levelBase_add_pow k h (le_of_lt hh)
  rw [levelBase]
  simp only [pow_succ] at h1
  omega

/-- Hash of every node of the built arena, by level coordinates: the cell
`levelBase k h + j` carries the positional Merkle hash `levelHash h j` of
the padded blocks. -/
theorem levelNode_hash (H : String → String) (q : List String) (k : Nat) (heap : Heap)
    (hspec : heapSpec H q (2 ^ k) (2 ^ k - 1) heap) :
    ∀ h, h ≤ k → ∀ j, j < 2 ^ (k - h) →
      (heap.node (levelBase k h + j)).hash = levelHash H q h j := by
  obtain ⟨hsize, hnodes⟩ := hspec
  have hp : 0 < 2 ^ k := Nat.pos_pow_of_pos _ (by norm_num)
  intro h
  induction h with
  | zero =>
    intro _ j hj
    have hj2 : j < 2 ^ k := by simpa using hj
    obtain ⟨c1, -, -⟩ := hnodes j (by omega)
    obtain ⟨-, -, hh⟩ := c1 hj2
    simpa [levelBase, levelHash] using hh
  | succ g ih =>
    intro hg j hj
    have hgk : g < k := by omega
    have hge : 2 ^ k ≤ levelBase k (g+1) + j := by
      have := le_levelBase_succ k g
      omega
    have hle := levelBase_idx_le k (g+1) j hg hj
    have epow : (2:Nat) ^ (k+1) = 2 ^ k * 2 := pow_succ 2 k
    obtain ⟨-, c2, -⟩ := hnodes (levelBase k (g+1) + j) (by omega)
    obtain ⟨-, -, hh⟩ := c2 hge
    have hpar := levelBase_parent k g 0 hgk
    have hb := levelBase_add_pow k g (le_of_lt hgk)
    have hb2 : (2:Nat) ^ (k - g + 1) = 2 ^ (k - g) * 2 := pow_succ 2 (k - g)
    have hch : 2 * (levelBase k (g+1) + j - 2 ^ k) = levelBase k g + 2 * j := by
      omega
    have hch2 : 2 * (levelBase k (g+1) + j - 2 ^ k) + 1 = levelBase k g + (2 * j + 1) := by
      omega
    rw [hch2, hch] at hh
    have e2 : k - g = (k - (g+1)) + 1 := by omega
    have hj2 : 2 * j < 2 ^ (k - g) := by
      rw [e2, pow_succ]
      omega
    have hj3 : 2 * j + 1 < 2 ^ (k - g) := by
      rw [e2, pow_succ]
      omega
    rw [hh, ih (by omega) (2*j) hj2, ih (by omega) (2*j+1) hj3, levelHash]

/-- Parent pointer of every non-root node, by level coordinates. -/
theorem levelNode_parent (H : String → String) (q : List String) (k : Nat) (heap : Heap)
    (hspec : heapSpec H q (2 ^ k) (2 ^ k - 1) heap)
    (h j : Nat) (hh : h < k) (hj : j < 2 ^ (k - h)) :
    (heap.node (levelBase k h + j)).parent = some (levelBase k (h+1) + j / 2) := by
  obtain ⟨hsize, hnodes⟩ := hspec
  have hlt := levelBase_idx_lt k h j hh hj
  have epow : (2:Nat) ^ (k+1) = 2 ^ k * 2 := pow_succ 2 k
  have hp : 0 < 2 ^ k := Nat.pos_pow_of_pos _ (by norm_num)
  obtain ⟨-, -, c3⟩ := hnodes (levelBase k h + j) (by omega)
  rw [c3, if_pos (by omega)]
  have := levelBase_parent k h j hh
  rw [Option.some.injEq]
  omega

/-- The root cell `2 ^ (k+1) - 2` has no parent. -/
theorem levelNode_root_parent (H : String → String) (q : List String) (k : Nat) (heap : Heap)
    (hspec : heapSpec H q (2 ^ k) (2 ^ k - 1) heap) :
    (heap.node (2 ^ (k+1) - 2)).parent = none := by
  obtain ⟨hsize, hnodes⟩ := hspec
  have epow : (2:Nat) ^ (k+1) = 2 ^ k * 2 := pow_succ 2 k
  have hp : 0 < 2 ^ k := Nat.pos_pow_of_pos _ (by norm_num)
  obtain ⟨-, -, c3⟩ := hnodes (2 ^ (k+1) - 2) (by omega)
  rw [c3, if_neg (by omega)]

/-- Child pointers of every inner node, by level coordinates. -/
theorem levelNode_children (H : String → String) (q : List String) (k : Nat) (heap : Heap)
    (hspec : heapSpec H q (2 ^ k) (2 ^ k - 1) heap)
    (h j : Nat) (hh : h < k) (hj : j < 2 ^ (k - (h+1))) :
    (heap.node (levelBase k (h+1) + j)).left = some (levelBase k h + 2*j)
    ∧ (heap.node (levelBase k (h+1) + j)).right = some (levelBase k h + (2*j+1)) := by
  obtain ⟨hsize, hnodes⟩ := hspec
  have hp : 0 < 2 ^ k := Nat.pos_pow_of_pos _ (by norm_num)
  have hge : 2 ^ k ≤ levelBase k (h+1) + j := by
    have := le_levelBase_succ k h
    omega
  have hle := levelBase_idx_le k (h+1) j (by omega) hj
  have epow : (2:Nat) ^ (k+1) = 2 ^ k * 2 := pow_succ 2 k
  obtain ⟨-, c2, -⟩ := hnodes (levelBase k (h+1) + j) (by omega)
  obtain ⟨hl, hr, -⟩ := c2 hge
  have hpar := levelBase_parent k h 0 hh
  have hb := levelBase_add_pow k h (le_of_lt hh)
  have hb2 : (2:Nat) ^ (k - h + 1) = 2 ^ (k - h) * 2 := pow_succ 2 (k - h)
  have hch : 2 * (levelBase k (h+1) + j - 2 ^ k) = levelBase k h + 2 * j := by
    omega
  have hch2 : 2 * (levelBase k (h+1) + j - 2 ^ k) + 1 = levelBase k h + (2 * j + 1) := by
    omega
  rw [hch] at hl
  rw [hch2] at hr
  exact ⟨hl, hr⟩

/-- Closed form of the parent-chasing loop of `generate_merkle_proof`,
started at node `j` of level `h` of a built arena: it climbs the remaining
`k - h` levels and collects, per level, the hash of the sibling of the
current position.  Any fuel of at least `k - h` gives the same value, so
the fuel `heap.size` used by `generate_merkle_proof` is never exhausted. -/
theorem proof_go_spec (H : String → String) (q : List String) (k : Nat) (heap : Heap)
    (hspec : heapSpec H q (2 ^ k) (2 ^ k - 1) heap) :
    ∀ d h j fuel, h + d = k → j < 2 ^ d → d ≤ fuel →
      proof_go heap fuel (levelBase k h + j)
        = (List.range' h d).map (fun t => levelHash H q t (sibpos (j / 2 ^ (t - h)))) := by
  intro d
  induction d with
  | zero =>
    intro h j fuel hh hj _
    obtain rfl : j = 0 := by omega
    obtain rfl : k = h := by omega
    have hpar : (heap.node (levelBase k k + 0)).parent = none := by
      rw [Nat.add_zero, levelBase_last]
      exact levelNode_root_parent H q k heap hspec
    cases fuel with
    | zero => rfl
    | succ f =>
      rw [proof_go, hpar]
      rfl
  | succ f ih =>
    intro h j fuel hh hj hfuel
    have hhk : h < k := by omega
    have hkh : k - h = f + 1 := by omega
    have hkh2 : k - (h + 1) = f := by omega
    have hjk : j < 2 ^ (k - h) := by
      rw [hkh]
      exact hj
    obtain ⟨g, rfl⟩ : ∃ g, fuel = g + 1 := ⟨fuel - 1, by omega⟩
    have hpar := levelNode_parent H q k heap hspec h j hhk hjk
    have hj2 : j / 2 < 2 ^ (k - (h+1)) := by
      rw [hkh2]
      omega
    obtain ⟨hcl, hcr⟩ := levelNode_children H q k heap hspec h (j / 2) hhk hj2
    have hrest := ih (h+1) (j / 2) g (by omega) (by rw [← hkh2]; exact hj2) (by omega)
    have hmap : (List.range' (h+1) f).map
          (fun t => levelHash H q t (sibpos (j / 2 / 2 ^ (t - (h+1)))))
        = (List.range' (h+1) f).map (fun t => levelHash H q t (sibpos (j / 2 ^ (t - h)))) := by
      apply List.map_congr_left
      intro t ht
      obtain ⟨ht1, -⟩ := List.mem_range'_1.1 ht
      have e1 : t - h = (t - (h+1)) + 1 := by omega
      rw [Nat.div_div_eq_div_mul, ← pow_succ', ← e1]
    have hrange : List.range' h (f+1) = h :: List.range' (h+1) f := List.range'_succ h f 1
    have hsub : h - h = 0 := Nat.sub_self h
    rw [proof_go, hpar, hrange, List.map_cons]
    rcases Nat.mod_two_eq_zero_or_one j with hp2 | hp2
    · have hje : 2 * (j / 2) = j := by omega
      have hjo : 2 * (j / 2) + 1 = j + 1 := by omega
      rw [hje] at hcl
      rw [hjo] at hcr
      have hsp : sibpos j = j + 1 := by
        rw [sibpos, if_pos hp2]
      have hpow : (2:Nat) ^ (k - h) = 2 ^ f * 2 := by
        rw [hkh, pow_succ]
      have hsib : (heap.node (levelBase k h + (j+1))).hash = levelHash H q h (j+1) := by
        apply levelNode_hash H q k heap hspec h (le_of_lt hhk)
        omega
      simp only [hcl, hcr, eq_self_iff_true, if_true, hsib, hrest, hmap, hsub, pow_zero,
        Nat.div_one, hsp]
    · have hje : 2 * (j / 2) = j - 1 := by omega
      rw [hje] at hcl
      have hne : ¬((heap.node (levelBase k (h+1) + j / 2)).left = some (levelBase k h + j)) := by
        rw [hcl]
        intro hcon
        rw [Option.some.injEq] at hcon
        omega
      have hsp : sibpos j = j - 1 := by
        rw [sibpos, if_neg (by omega)]
      have hsib : (heap.node (levelBase k h + (j - 1))).hash = levelHash H q h (j - 1) := by
        apply levelNode_hash H q k heap hspec h (le_of_lt hhk)
        omega
      have hif : (if (heap.node (levelBase k (h+1) + j / 2)).left = some (levelBase k h + j)
          then (heap.node (levelBase k (h+1) + j / 2)).right
          else (heap.node (levelBase k (h+1) + j / 2)).left)
          = some (levelBase k h + (j - 1)) := by
        rw [if_neg hne, hcl]
      simp only [hif, hsib, hrest, hmap, hsub, pow_zero, Nat.div_one, hsp]

/-- Closed form of `generate_merkle_proof` from leaf `i` of a built arena
over `2 ^ k` padded leaves: one sibling hash per level, ordered from the
leaf's immediate sibling at level 0 upward. -/
theorem generate_proof_spec (H : String → String) (q : List String) (k : Nat) (heap : Heap)
    (hspec : heapSpec H q (2 ^ k) (2 ^ k - 1) heap) (root i : Nat) (hi : i < 2 ^ k) :
    generate_merkle_proof heap root i
      = (List.range k).map (fun t => levelHash H q t (sibpos (i / 2 ^ t))) := by
  have hsize : heap.size = 2 ^ k + (2 ^ k - 1) := hspec.1
  have hkk : k ≤ heap.size := by
    have := Nat.lt_two_pow k
    omega
  have h := proof_go_spec H q k heap hspec k 0 i heap.size (by omega) (by simpa using hi) hkk
  simp only [levelBase, Nat.zero_add, Nat.sub_zero] at h
  rw [generate_merkle_proof, List.range_eq_range']
  exact h

/-- C4: on a tree built over `p = 2 ^ k` padded leaves, the proof generated
for leaf `i` consists of exactly the `k = log2 p` sibling hashes of the
leaf-to-root path, ordered from the leaf's immediate sibling (level `0`) up
to the sibling closest to the root (level `k - 1`); in particular its
length is `k`. -/
theorem C4_proof_entries (H : String → String) (l : List String) (i k : Nat)
    (hl : 1 ≤ l.length) (hk : (pad_blocks l).length = 2 ^ k)
    (hi : i < (pad_blocks l).length) :
    generate_merkle_proof (build_merkle_tree H l).1 (2 * (pad_blocks l).length - 2) i
      = (List.range k).map (fun t => levelHash H (pad_blocks l) t (sibpos (i / 2 ^ t)))
    ∧ (generate_merkle_proof (build_merkle_tree H l).1 (2 * (pad_blocks l).length - 2) i).length
      = k := by
  obtain ⟨-, hspec⟩ := build_merkle_tree_spec H l hl
  rw [hk] at hspec hi
  have h := generate_proof_spec H (pad_blocks l) k (build_merkle_tree H l).1 hspec
    (2 * (pad_blocks l).length - 2) i hi
  refine ⟨h, ?_⟩
  rw [h, List.length_map, List.length_range]

/-- Witness for C4 on the two-block input, leaf 0. -/
theorem C4_proof_entries_witness :
    (1 ≤ (["u", "v"] : List String).length
      ∧ (pad_blocks ["u", "v"]).length = 2 ^ 1
      ∧ 0 < (pad_blocks ["u", "v"]).length)
    ∧ (generate_merkle_proof (build_merkle_tree hashWit ["u", "v"]).1
          (2 * (pad_blocks ["u", "v"]).length - 2) 0
        = (List.range 1).map
            (fun t => levelHash hashWit (pad_blocks ["u", "v"]) t (sibpos (0 / 2 ^ t)))
      ∧ (generate_merkle_proof (build_merkle_tree hashWit ["u", "v"]).1
            (2 * (pad_blocks ["u", "v"]).length - 2) 0).length = 1) :=
  ⟨⟨by decide, by decide, by decide⟩,
    C4_proof_entries hashWit ["u", "v"] 0 1 (by decide) (by decide) (by decide)⟩

/-- C9: structural invariants of the tree built over `p = 2 ^ k` padded
leaves: the arena has exactly `2p - 1` nodes and the returned root is node
`2p - 2`; the first `p` cells are childless leaves; inner node `p + t` has
children `2t` and `2t + 1` and its hash is `combine_hashes` of its two
children's hashes; child and parent pointers are mutually consistent; and
every leaf sits at depth exactly `k = log2 p` below the root, which is
completeness of the binary tree at height `k`. -/
theorem C9_invariants (H : String → String) (l : List String) (k : Nat)
    (hl : 1 ≤ l.length) (hk : (pad_blocks l).length = 2 ^ k) :
    (build_merkle_tree H l).1.size = 2 * (pad_blocks l).length - 1
    ∧ (build_merkle_tree H l).2 = some (2 * (pad_blocks l).length - 2)
    ∧ (∀ i, i < (pad_blocks l).length →
        ((build_merkle_tree H l).1.node i).left = none
        ∧ ((build_merkle_tree H l).1.node i).right = none)
    ∧ (∀ t, t < (pad_blocks l).length - 1 →
        ((build_merkle_tree H l).1.node ((pad_blocks l).length + t)).left = some (2*t)
        ∧ ((build_merkle_tree H l).1.node ((pad_blocks l).length + t)).right = some (2*t+1)
        ∧ ((build_merkle_tree H l).1.node ((pad_blocks l).length + t)).hash
          = combine_hashes H ((build_merkle_tree H l).1.node (2*t)).hash
              ((build_merkle_tree H l).1.node (2*t+1)).hash)
    ∧ (∀ x pi, x < (build_merkle_tree H l).1.size → pi < (build_merkle_tree H l).1.size →
        ((((build_merkle_tree H l).1.node pi).left = some x
          ∨ ((build_merkle_tree H l).1.node pi).right = some x)
          ↔ ((build_merkle_tree H l).1.node x).parent = some pi))
    ∧ (∀ i, i < (pad_blocks l).length →
        (generate_merkle_proof (build_merkle_tree H l).1
            (2 * (pad_blocks l).length - 2) i).length = k) := by
  obtain ⟨hroot, hspec⟩ := build_merkle_tree_spec H l hl
  rw [hk] at hroot hspec
  rw [hk]
  have hp : 0 < 2 ^ k := Nat.pos_pow_of_pos _ (by norm_num)
  have hsize := hspec.1
  have hnodes := hspec.2
  refine ⟨by omega, hroot, ?_, ?_, ?_, ?_⟩
  · intro i hi
    obtain ⟨c1, -, -⟩ := hnodes i (by omega)
    obtain ⟨hL, hR, -⟩ := c1 hi
    exact ⟨hL, hR⟩
  · intro t ht
    obtain ⟨-, c2, -⟩ := hnodes (2 ^ k + t) (by omega)
    obtain ⟨hL, hR, hH⟩ := c2 (by omega)
    have e : 2 ^ k + t - 2 ^ k = t := by omega
    rw [e] at hL hR hH
    exact ⟨hL, hR, hH⟩
  · intro x pi hx hpi
    rw [hsize] at hx hpi
    constructor
    · intro hchild
      rcases Nat.lt_or_ge pi (2 ^ k) with hpi2 | hpi2
      · obtain ⟨c1, -, -⟩ := hnodes pi (by omega)
        obtain ⟨hL, hR, -⟩ := c1 hpi2
        rcases hchild with hc | hc
        · rw [hL] at hc
          exact absurd hc (by simp)
        · rw [hR] at hc
          exact absurd hc (by simp)
      · obtain ⟨-, c2, -⟩ := hnodes pi (by omega)
        obtain ⟨hL, hR, -⟩ := c2 hpi2
        have hxval : x = 2*(pi - 2 ^ k) ∨ x = 2*(pi - 2 ^ k) + 1 := by
          rcases hchild with hc | hc
          · rw [hL, Option.some.injEq] at hc
            exact Or.inl hc.symm
          · rw [hR, Option.some.injEq] at hc
            exact Or.inr hc.symm
        obtain ⟨-, -, c3⟩ := hnodes x (by omega)
        rw [c3, if_pos (by omega), Option.some.injEq]
        omega
    · intro hparent
      obtain ⟨-, -, c3⟩ := hnodes x (by omega)
      rw [c3] at hparent
      by_cases hxr : x < 2 * (2 ^ k - 1)
      · rw [if_pos hxr, Option.some.injEq] at hparent
        obtain ⟨-, c2, -⟩ := hnodes pi (by omega)
        obtain ⟨hL, hR, -⟩ := c2 (by omega)
        rcases Nat.mod_two_eq_zero_or_one x with hx2 | hx2
        · refine Or.inl ?_
          rw [hL, Option.some.injEq]
          omega
        · refine Or.inr ?_
          rw [hR, Option.some.injEq]
          omega
      · rw [if_neg hxr] at hparent
        exact absurd hparent (by simp)
  · intro i hi
    rw [generate_proof_spec H (pad_blocks l) k (build_merkle_tree H l).1 hspec
      (2 * 2 ^ k - 2) i (by omega), List.length_map, List.length_range]

/-- Witness for C9 on the two-block input. -/
theorem C9_invariants_witness :
    (1 ≤ (["u", "v"] : List String).length ∧ (pad_blocks ["u", "v"]).length = 2 ^ 1)
    ∧ ((build_merkle_tree hashWit ["u", "v"]).1.size = 2 * (pad_blocks ["u", "v"]).length - 1
    ∧ (build_merkle_tree hashWit ["u", "v"]).2 = some (2 * (pad_blocks ["u", "v"]).length - 2)
    ∧ (∀ i, i < (pad_blocks ["u", "v"]).length →
        ((build_merkle_tree hashWit ["u", "v"]).1.node i).left = none
        ∧ ((build_merkle_tree hashWit ["u", "v"]).1.node i).right = none)
    ∧ (∀ t, t < (pad_blocks ["u", "v"]).length - 1 →
        ((build_merkle_tree hashWit ["u", "v"]).1.node
            ((pad_blocks ["u", "v"]).length + t)).left = some (2*t)
        ∧ ((build_merkle_tree hashWit ["u", "v"]).1.node
            ((pad_blocks ["u", "v"]).length + t)).right = some (2*t+1)
        ∧ ((build_merkle_tree hashWit ["u", "v"]).1.node
            ((pad_blocks ["u", "v"]).length + t)).hash
          = combine_hashes hashWit
              ((build_merkle_tree hashWit ["u", "v"]).1.node (2*t)).hash
              ((build_merkle_tree hashWit ["u", "v"]).1.node (2*t+1)).hash)
    ∧ (∀ x pi, x < (build_merkle_tree hashWit ["u", "v"]).1.size →
        pi < (build_merkle_tree hashWit ["u", "v"]).1.size →
        ((((build_merkle_tree hashWit ["u", "v"]).1.node pi).left = some x
          ∨ ((build_merkle_tree hashWit ["u", "v"]).1.node pi).right = some x)
          ↔ ((build_merkle_tree hashWit ["u", "v"]).1.node x).parent = some pi))
    ∧ (∀ i, i < (pad_blocks ["u", "v"]).length →
        (generate_merkle_proof (build_merkle_tree hashWit ["u", "v"]).1
            (2 * (pad_blocks ["u", "v"]).length - 2) i).length = 1)) :=
  ⟨⟨by decide, by decide⟩, C9_invariants hashWit ["u", "v"] 1 (by decide) (by decide)⟩

/-- Folding the verifier's comparison-ordered combine over the generated
sibling list recomputes the positional root hash, provided the digest
order agrees with the positional order on every combined pair of the tree
(the left child's digest is at most the right child's). -/
theorem verify_fold_spec (H : String → String) (q : List String) (k : Nat)
    (hord : ∀ t, t < k → ∀ u, u < 2 ^ (k - (t+1)) →
      levelHash H q t (2*u) ≤ levelHash H q t (2*u+1)) :
    ∀ d h j, h + d = k → j < 2 ^ d →
      List.foldl (fun current_hash sibling_hash =>
          if current_hash < sibling_hash then combine_hashes H current_hash sibling_hash
          else combine_hashes H sibling_hash current_hash)
        (levelHash H q h j)
        ((List.range' h d).map (fun t => levelHash H q t (sibpos (j / 2 ^ (t - h)))))
        = levelHash H q k 0 := by
  intro d
  induction d with
  | zero =>
    intro h j hh hj
    obtain rfl : j = 0 := by omega
    obtain rfl : k = h := by omega
    rfl
  | succ f ih =>
    intro h j hh hj
    have hhk : h < k := by omega
    have hkh2 : k - (h+1) = f := by omega
    have hsub : h - h = 0 := Nat.sub_self h
    have hrange : List.range' h (f+1) = h :: List.range' (h+1) f := List.range'_succ h f 1
    have hmap : (List.range' (h+1) f).map
          (fun t => levelHash H q t (sibpos (j / 2 ^ (t - h))))
        = (List.range' (h+1) f).map
          (fun t => levelHash H q t (sibpos (j / 2 / 2 ^ (t - (h+1))))) := by
      apply List.map_congr_left
      intro t ht
      obtain ⟨ht1, -⟩ := List.mem_range'_1.1 ht
      have e1 : t - h = (t - (h+1)) + 1 := by omega
      rw [Nat.div_div_eq_div_mul, ← pow_succ', ← e1]
    have hu := hord h hhk (j / 2) (by
      rw [hkh2]
      have hpow : (2:Nat) ^ (f+1) = 2 ^ f * 2 := pow_succ 2 f
      omega)
    have hstep : (if levelHash H q h j < levelHash H q h (sibpos j)
        then combine_hashes H (levelHash H q h j) (levelHash H q h (sibpos j))
        else combine_hashes H (levelHash H q h (sibpos j)) (levelHash H q h j))
        = levelHash H q (h+1) (j / 2) := by
      rcases Nat.mod_two_eq_zero_or_one j with hp2 | hp2
      · have hsp : sibpos j = j + 1 := by
          rw [sibpos, if_pos hp2]
        have hje : 2 * (j / 2) = j := by omega
        rw [hje] at hu
        rw [hsp]
        rcases eq_or_lt_of_le hu with heq | hlt
        · rw [← heq, if_neg (lt_irrefl _), levelHash, hje, ← heq]
        · rw [if_pos hlt, levelHash, hje]
      · have hsp : sibpos j = j - 1 := by
          rw [sibpos, if_neg (by omega)]
        have hje : 2 * (j / 2) = j - 1 := by omega
        have hjo : 2 * (j / 2) + 1 = j := by omega
        rw [hjo, hje] at hu
        rw [hsp, if_neg (not_lt.2 hu), levelHash, hjo, hje]
    rw [hrange, List.map_cons, List.foldl_cons]
    simp only [hsub, pow_zero, Nat.div_one]
    rw [hstep, hmap]
    exact ih (h+1) (j / 2) (by omega) (by omega)

/-- C1 (amended): round-trip verification succeeds for every leaf of a
built tree, under the proviso — forced by `C1_counterexample` — that the
lexicographic digest order agrees with the builder's positional order on
every combined pair of the tree (each left child's digest is at most its
right sibling's).  The builder combines children positionally, while
`verify` orders every combination by comparing digests, so the round trip
recomputes the root exactly when the two orders agree along the way. -/
theorem C1_round_trip_ordered (H : String → String) (l : List String) (i k : Nat)
    (hl : 1 ≤ l.length) (hk : (pad_blocks l).length = 2 ^ k)
    (hi : i < (pad_blocks l).length)
    (hord : ∀ t, t < k → ∀ u, u < 2 ^ (k - (t+1)) →
      levelHash H (pad_blocks l) t (2*u) ≤ levelHash H (pad_blocks l) t (2*u+1)) :
    verify H ((build_merkle_tree H l).1.node (2 * (pad_blocks l).length - 2))
      ((build_merkle_tree H l).1.node i)
      (generate_merkle_proof (build_merkle_tree H l).1
        (2 * (pad_blocks l).length - 2) i) = true := by
  obtain ⟨-, hspec⟩ := build_merkle_tree_spec H l hl
  rw [hk] at hspec hi
  rw [hk]
  have hp : 0 < 2 ^ k := Nat.pos_pow_of_pos _ (by norm_num)
  have hleaf : ((build_merkle_tree H l).1.node i).hash = levelHash H (pad_blocks l) 0 i := by
    have h := levelNode_hash H (pad_blocks l) k (build_merkle_tree H l).1 hspec 0 (by omega) i
      (by simpa using hi)
    simpa [levelBase] using h
  have hroot : ((build_merkle_tree H l).1.node (2 * 2 ^ k - 2)).hash
      = levelHash H (pad_blocks l) k 0 := by
    have h2 : 2 * 2 ^ k - 2 = levelBase k k + 0 := by
      rw [levelBase_last]
      have e : (2:Nat) ^ (k+1) = 2 ^ k * 2 := pow_succ 2 k
      omega
    rw [h2]
    apply levelNode_hash H (pad_blocks l) k (build_merkle_tree H l).1 hspec k le_rfl 0
    simp
  have hfold := verify_fold_spec H (pad_blocks l) k hord k 0 i (by omega) (by simpa using hi)
  simp only [Nat.sub_zero] at hfold
  rw [← List.range_eq_range'] at hfold
  rw [verify, generate_proof_spec H (pad_blocks l) k (build_merkle_tree H l).1 hspec
    (2 * 2 ^ k - 2) i hi, hleaf, hroot, hfold]
  simp

/-- Witness for the amended C1 on the two-block input whose leaf digests
are already in lexicographic order. -/
theorem C1_round_trip_ordered_witness :
    (1 ≤ (["u", "v"] : List String).length
      ∧ (pad_blocks ["u", "v"]).length = 2 ^ 1
      ∧ 0 < (pad_blocks ["u", "v"]).length
      ∧ (∀ t, t < 1 → ∀ u, u < 2 ^ (1 - (t+1)) →
          levelHash hashWit (pad_blocks ["u", "v"]) t (2*u)
            ≤ levelHash hashWit (pad_blocks ["u", "v"]) t (2*u+1)))
    ∧ verify hashWit
        ((build_merkle_tree hashWit ["u", "v"]).1.node (2 * (pad_blocks ["u", "v"]).length - 2))
        ((build_merkle_tree hashWit ["u", "v"]).1.node 0)
        (generate_merkle_proof (build_merkle_tree hashWit ["u", "v"]).1
          (2 * (pad_blocks ["u", "v"]).length - 2) 0) = true :=
  ⟨⟨by decide, by decide, by decide, by decide⟩,
    C1_round_trip_ordered hashWit ["u", "v"] 0 1 (by decide) (by decide) (by decide) (by decide)⟩

/-- C1 (counterexample): with the digest function `hashCex` — a legitimate
member of the implementation-defined `std::hash` digest family — the round
trip fails as stated: on blocks `["u", "v"]` the builder computes the root
hash of `"b" ++ "a"` positionally, but `verify`, starting from leaf hash
`"b"` with generated proof `["a"]`, reorders the combination
lexicographically and hashes `"a" ++ "b"` instead, so verification of the
honestly generated proof for leaf 0 returns false. -/
theorem C1_counterexample :
    (build_merkle_tree hashCex ["u", "v"]).2 = some 2
    ∧ generate_merkle_proof (build_merkle_tree hashCex ["u", "v"]).1 2 0 = ["a"]
    ∧ verify hashCex ((build_merkle_tree hashCex ["u", "v"]).1.node 2)
        ((build_merkle_tree hashCex ["u", "v"]).1.node 0)
        (generate_merkle_proof (build_merkle_tree hashCex ["u", "v"]).1 2 0) = false := by
  decide

/-- The verifier is the fold of `verifyStep` followed by the root
comparison. -/
theorem verify_eq_foldl_step (H : String → String) (root leaf : MerkleNode)
    (merkle_proof : List String) :
    verify H root leaf merkle_proof
      = (merkle_proof.foldl (verifyStep H) leaf.hash == root.hash) := rfl

/-- Without a combine collision, the verification step is injective in its
first (accumulated) argument. -/
theorem step_ne_of_ne_first (H : String → String) (hnc : ¬CombineCollision H)
    (x x' s : String) (hx : x ≠ x') : verifyStep H x s ≠ verifyStep H x' s := by
  intro h
  exact hnc ⟨x, s, x', s, h, fun hc => hx hc.1, fun hc => hx (hc.1.trans hc.2)⟩

/-- Without a combine collision, the verification step is injective in its
second (sibling) argument. -/
theorem step_ne_of_ne_second (H : String → String) (hnc : ¬CombineCollision H)
    (x s s' : String) (hs : s ≠ s') : verifyStep H x s ≠ verifyStep H x s' := by
  intro h
  exact hnc ⟨x, s, x, s', h, fun hc => hs hc.2, fun hc => hs (hc.2.trans hc.1)⟩

/-- Without a combine collision, distinct accumulated digests stay distinct
through the whole verification fold. -/
theorem foldl_step_ne (H : String → String) (hnc : ¬CombineCollision H) :
    ∀ (P : List String) (x x' : String), x ≠ x' →
      P.foldl (verifyStep H) x ≠ P.foldl (verifyStep H) x' := by
  intro P
  induction P with
  | nil =>
    intro x x' hx
    simpa using hx
  | cons s t ih =>
    intro x x' hx
    simp only [List.foldl_cons]
    exact ih _ _ (step_ne_of_ne_first H hnc x x' s hx)

/-- Without a combine collision, changing one proof entry to a different
value changes the folded digest. -/
theorem foldl_step_set_ne (H : String → String) (hnc : ¬CombineCollision H) :
    ∀ (P : List String) (t : Nat) (s' x : String), t < P.length → s' ≠ P.getD t "" →
      (P.set t s').foldl (verifyStep H) x ≠ P.foldl (verifyStep H) x := by
  intro P
  induction P with
  | nil =>
    intro t s' x ht _
    simp at ht
  | cons s rest ih =>
    intro t s' x ht hs
    cases t with
    | zero =>
      simp only [List.set, List.foldl_cons]
      exact foldl_step_ne H hnc rest _ _
        (step_ne_of_ne_second H hnc x s' s (by simpa using hs))
    | succ t =>
      simp only [List.set, List.foldl_cons]
      exact ih t s' (verifyStep H x s) (by simpa using ht) (by simpa using hs)

/-- C8 (amended): tamper detection holds up to combine collisions.  If a
proof verifies and either one proof entry is changed to a different value
or the leaf digest is replaced by a different digest, then the modified
verification can only return true when the verification combine step has a
collision on two genuinely different digest pairs; absent such a
collision, `verify` returns false.  The proviso is forced by
`C8_counterexample`: the comparison-based combination order lets two
different digest pairs produce the same ordered concatenation without any
collision of the underlying hash, so unconditional tamper detection fails
as originally stated. -/
theorem C8_tamper_detection (H : String → String) (root leaf : MerkleNode)
    (P : List String) (hv : verify H root leaf P = true) :
    (∀ t s', t < P.length → s' ≠ P.getD t "" →
      verify H root leaf (P.set t s') = true → CombineCollision H)
    ∧ (∀ b, b ≠ leaf.hash →
      verify H root ⟨b, none, none, none⟩ P = true → CombineCollision H) := by
  constructor
  · intro t s' ht hs hv2
    by_contra hnc
    rw [verify_eq_foldl_step, beq_iff_eq] at hv hv2
    exact foldl_step_set_ne H hnc P t s' leaf.hash ht hs (hv2.trans hv.symm)
  · intro b hb hv2
    by_contra hnc
    rw [verify_eq_foldl_step, beq_iff_eq] at hv hv2
    exact foldl_step_ne H hnc P b leaf.hash hb (hv2.trans hv.symm)

/-- Witness for the amended C8 on a concrete verifying instance. -/
theorem C8_tamper_detection_witness :
    verify hashCex2 ⟨"ababa", none, none, none⟩ ⟨"aba", none, none, none⟩ ["ba"] = true
    ∧ ((∀ t s', t < (["ba"] : List String).length → s' ≠ (["ba"] : List String).getD t "" →
        verify hashCex2 ⟨"ababa", none, none, none⟩ ⟨"aba", none, none, none⟩
          ((["ba"] : List String).set t s') = true → CombineCollision hashCex2)
      ∧ (∀ b, b ≠ (⟨"aba", none, none, none⟩ : MerkleNode).hash →
        verify hashCex2 ⟨"ababa", none, none, none⟩ ⟨b, none, none, none⟩ ["ba"] = true →
          CombineCollision hashCex2)) :=
  ⟨by decide,
    C8_tamper_detection hashCex2 ⟨"ababa", none, none, none⟩ ⟨"aba", none, none, none⟩
      ["ba"] (by decide)⟩

/-- C8 (counterexample): on the two-block tree built with `hashCex2` the
two leaf digests `"aba"` and `"ba"` are distinct and the generated proof
`["ba"]` for leaf 0 verifies; yet changing its single entry to the
different value `"ab"` still verifies, because the verifier's
comparison-based ordering concatenates `"aba" ++ "ba"` in the honest run
and `"ab" ++ "aba"` in the tampered run — the same string `"ababa"` — so
tampering with a proof entry does not make `verify` return false. -/
theorem C8_counterexample :
    (build_merkle_tree hashCex2 ["u", "v"]).2 = some 2
    ∧ ((build_merkle_tree hashCex2 ["u", "v"]).1.node 0).hash
        ≠ ((build_merkle_tree hashCex2 ["u", "v"]).1.node 1).hash
    ∧ generate_merkle_proof (build_merkle_tree hashCex2 ["u", "v"]).1 2 0 = ["ba"]
    ∧ verify hashCex2 ((build_merkle_tree hashCex2 ["u", "v"]).1.node 2)
        ((build_merkle_tree hashCex2 ["u", "v"]).1.node 0) ["ba"] = true
    ∧ ("ab" : String) ≠ "ba"
    ∧ (["ba"] : List String).set 0 "ab" = ["ab"]
    ∧ verify hashCex2 ((build_merkle_tree hashCex2 ["u", "v"]).1.node 2)
        ((build_merkle_tree hashCex2 ["u", "v"]).1.node 0) ["ab"] = true := by
  decide

/-- C2: on zero blocks the padding loop does not run (`0 & (0-1) = 0`), no
leaf is created, the reduction loop does not run, and the final `nodes[0]`
is an out-of-bounds read on the empty vector — modelled as `none`.  No
`EmptyInputError` (or any error value) exists anywhere in the code; the
builder neither returns a node nor surfaces an error. -/
theorem C2_empty_input_no_root (H : String → String) :
    (build_merkle_tree H []).2 = none ∧ (build_merkle_tree H []).1.size = 0 :=
  ⟨rfl, rfl⟩

/-- C6: for a one-element input no padding occurs, the returned root is the
single leaf itself (index 0) whose hash is the block's hash, the generated
proof is empty, and verification of the empty proof succeeds. -/
theorem C6_single_leaf (H : String → String) (x : String) :
    pad_blocks [x] = [x]
    ∧ (build_merkle_tree H [x]).2 = some 0
    ∧ ((build_merkle_tree H [x]).1.node 0).hash = simple_hash H x
    ∧ generate_merkle_proof (build_merkle_tree H [x]).1 0 0 = []
    ∧ verify H ((build_merkle_tree H [x]).1.node 0) ((build_merkle_tree H [x]).1.node 0) [] = true := by
  have hpad : pad_blocks [x] = [x] := by
    simp [pad_blocks, pad_go]
  have hbuild : build_merkle_tree H [x]
      = (⟨1, fun i => { hash := simple_hash H ([x].getD i "") }⟩, some 0) := by
    simp [build_merkle_tree, hpad, build_go, List.range_succ]
  refine ⟨hpad, by rw [hbuild], by rw [hbuild]; simp, ?_, ?_⟩
  · rw [hbuild]
    simp [generate_merkle_proof, proof_go]
  · rw [hbuild]
    simp [verify]

/-- C7: verification is a total boolean function — the embedding's type
already rules out any raised error, and the theorem records that the result
is one of the two booleans — and on the empty proof it returns true exactly
when the leaf hash equals the root hash. -/
theorem C7_verify_total_and_empty (H : String → String) (root leaf : MerkleNode)
    (merkle_proof : List String) :
    (verify H root leaf merkle_proof = true ∨ verify H root leaf merkle_proof = false)
    ∧ (verify H root leaf [] = true ↔ leaf.hash = root.hash) := by
  constructor
  · cases h : verify H root leaf merkle_proof
    · exact Or.inr rfl
    · exact Or.inl rfl
  · simp [verify]

/-- C5: verify folds the proof in order starting from the leaf hash,
passing the lexicographically smaller of the accumulated digest and the
proof entry as the left argument of `combine_hashes` and the larger as the
right argument, and returns true exactly when the final digest equals the
root's hash. -/
theorem C5_verify_characterisation (H : String → String) (root leaf : MerkleNode)
    (merkle_proof : List String) :
    verify H root leaf merkle_proof = true ↔
      merkle_proof.foldl
        (fun current sibling => combine_hashes H (min current sibling) (max current sibling))
        leaf.hash = root.hash := by
  have hstep : ∀ current sibling : String,
      (if current < sibling then combine_hashes H current sibling
       else combine_hashes H sibling current)
        = combine_hashes H (min current sibling) (max current sibling) := by
    intro c s
    rcases lt_or_le c s with h | h
    · rw [if_pos h, min_eq_left h.le, max_eq_right h.le]
    · rw [if_neg (not_lt.2 h), min_eq_right h, max_eq_left h]
  unfold verify
  rw [beq_iff_eq,
    List.foldl_ext _ (fun current sibling =>
        combine_hashes H (min current sibling) (max current sibling))
      leaf.hash (fun a b _ => hstep a b)]

/-- C10: verify is symmetric in the leaf hash and the first proof entry,
because the first combination step orders the two digests by comparison
rather than by position. -/
theorem C10_verify_first_step_symmetric (H : String → String) (root : MerkleNode)
    (a b : String) (P : List String) :
    verify H root ⟨a, none, none, none⟩ (b :: P)
      = verify H root ⟨b, none, none, none⟩ (a :: P) := by
  have hstep : (if a < b then combine_hashes H a b else combine_hashes H b a)
      = (if b < a then combine_hashes H b a else combine_hashes H a b) := by
    rcases lt_trichotomy a b with h | h | h
    · rw [if_pos h, if_neg (not_lt.2 h.le)]
    · subst h
      rfl
    · rw [if_neg (not_lt.2 h.le), if_pos h]
  simp only [verify, List.foldl_cons]
  rw [hstep]
